import Mathlib

/-
Shallow embedding of the symmetric eigenvalue solver of
src/src/linalg/symmetric_eigen.rs (struct SymmetricEigen, fn do_decompose,
fn delimit_subproblem, fn wilkinson_shift, fn recompose and the public
entry points symmetric_eigen / try_symmetric_eigen / symmetric_eigenvalues).

The generic scalar field N (a ComplexField with its RealField) is
instantiated at a real scalar field, modelled as a linearly ordered field
`α`; `norm1`, `conjugate` and `signum` of the scalar-capability interface
become `|x|`, the identity and `if x < 0 then -1 else 1`.  Matrices are
row-major lists of rows; Rust's `Option` return of `do_decompose` is the
inner `Option` of the `Out` result type, panics are `Out.panic`, and the
`while` loop is fuel-indexed (`Out.outOfFuel` is an artifact of the
embedding, never of the code).

The collaborators that the spec lists as external interfaces
(tridiagonalization, Givens rotations, the closed-form 2x2 eigensolver)
are not part of the reviewed sources; they live in an `Externals`
capability record, modelled from the spec.
-/

namespace Nalg

/-- real-field signum used by `wilkinson_shift`: `signum 0 = 1`, matching
`f64::signum(0.0) = 1.0` and the spec's "sign(0) is treated as positive". -/
def signum {α : Type} [LinearOrderedField α] (x : α) : α :=
  if x < 0 then -1 else 1

/-- embedding of `fn wilkinson_shift` (symmetric_eigen.rs lines 296-305),
parametrized by the scalar field's square-root capability. -/
def wilkinson_shift {α : Type} [LinearOrderedField α] (sqrt : α → α) (tmm tnn tmn : α) : α :=
  let sq_tmn := tmn * tmn
  if sq_tmn ≠ 0 then
    let d := (tmm - tnn) * (1 / 2 : α)
    tnn - sq_tmn / (d + signum d * sqrt (d * d + sq_tmn))
  else
    tnn

variable {α : Type} [LinearOrderedField α]

/-- entry `(i, j)` of a row-major matrix (out-of-range reads default to `0`,
which the call sites never exercise on well-shaped input). -/
def entryAt (m : List (List α)) (i j : ℕ) : α := (m.getD i []).getD j 0

/-- embedding of `Matrix::is_square` for a row-major rectangular matrix:
every row as long as the list of rows. -/
def isSquare (m : List (List α)) : Bool := m.all (fun r => r.length == m.length)

/-- embedding of `m.camax()`: the maximum of `|entry|` over the whole
matrix (upper triangle included), `0` for an empty matrix. -/
def camax (m : List (List α)) : α :=
  (m.map (fun r => (r.map (fun x => |x|)).foldr max 0)).foldr max 0

/-- embedding of `m.unscale_mut(a)`: divide every entry by `a`. -/
def unscale (m : List (List α)) (a : α) : List (List α) :=
  m.map (fun r => r.map (fun x => x / a))

/-- the lower triangle (diagonal included) of a square matrix, the only part
of its argument that the tridiagonalization reads (doc of
`SymmetricEigen::new` / spec section 6); the strict upper triangle is
replaced by zeros. -/
def lowerTri (m : List (List α)) : List (List α) :=
  (List.range m.length).map (fun i =>
    (List.range m.length).map (fun j => if j ≤ i then entryAt m i j else 0))

/-- identity matrix as a row-major list of rows. -/
def idMat (n : ℕ) : List (List α) :=
  (List.range n).map (fun i => (List.range n).map (fun j => if i = j then (1 : α) else 0))

/-- first backward scan of `SymmetricEigen::delimit_subproblem`
(lines 243-253): starting from `end`, decrement `n` while the off-diagonal
entry `off_diag[n-1]` does NOT exceed `eps * (|diag[n]| + |diag[n-1]|)`. -/
def delimit_first (diag off_diag : List α) (eps : α) : ℕ → ℕ
  | 0 => 0
  | n + 1 =>
    if eps * (|diag.getD (n + 1) 0| + |diag.getD n 0|) < |off_diag.getD n 0| then n + 1
    else delimit_first diag off_diag eps n

/-- second backward scan of `SymmetricEigen::delimit_subproblem`
(lines 259-271): starting from `n - 1`, decrement `new_start` while
`off_diag[new_start-1]` is nonzero and exceeds the relative threshold. -/
def delimit_second (diag off_diag : List α) (eps : α) : ℕ → ℕ
  | 0 => 0
  | s + 1 =>
    if off_diag.getD s 0 = 0 ∨
        |off_diag.getD s 0| ≤ eps * (|diag.getD (s + 1) 0| + |diag.getD s 0|) then s + 1
    else delimit_second diag off_diag eps s

/-- embedding of `SymmetricEigen::delimit_subproblem` (lines 233-274).
Returns the pair `(start, end)` together with the updated `off_diag`:
when the second scan stops at `new_start > 0` it zeroes
`off_diag[new_start - 1]` (the single side effect of the function; `diag`
is behind a shared reference and is never written). -/
def delimit_subproblem (diag off_diag : List α) (end_ : ℕ) (eps : α) :
    (ℕ × ℕ) × List α :=
  let n := delimit_first diag off_diag eps end_
  if n = 0 then ((0, 0), off_diag)
  else
    let s := delimit_second diag off_diag eps (n - 1)
    ((s, n), if s = 0 then off_diag else off_diag.set (s - 1) 0)

/-- Modelled from the spec: the external capabilities consumed by the
solver (spec section 6) that are not part of the reviewed sources —
the scalar square root, the default convergence epsilon
(`N::RealField::default_epsilon()`), symmetric tridiagonalization
(`SymmetricTridiagonal::new(m).unpack() / .unpack_tridiagonal()`, which
agree on the returned `diag` / `off_diag`), the closed-form 2x2
eigensolver (`Matrix2::eigenvalues`, total on symmetric input), and the
two Givens constructors (`GivensRotation::cancel_y`, returning none on a
degenerate input, and `GivensRotation::try_new`, returning none when the
norm of its input does not exceed `eps`). -/
structure Externals (α : Type) where
  sqrt : α → α
  defaultEps : α
  tridiag : List (List α) → List (List α) × List α × List α
  eig2 : α → α → α → α × α
  cancelY : α → α → Option (α × α × α)
  tryNewGivens : α → α → α → Option (α × α)

/-- Modelled from the spec: right-multiplication of columns `i, i+1` of the
accumulator `Q` by the plane rotation `(c, s)`
(`GivensRotation::rotate_rows` on `q.fixed_columns_mut::<U2>(i)`). -/
def rotateCols (c s : α) (i : ℕ) (q : List (List α)) : List (List α) :=
  q.map (fun row =>
    let a := row.getD i 0
    let b := row.getD (i + 1) 0
    (row.set i (c * a - s * b)).set (i + 1) (s * a + c * b))

/-- state of the bulge-chasing inner loop of `do_decompose`
(lines 153-190): the chased 2-vector `v`, the two tridiagonal buffers and
the optional accumulator. -/
structure SweepSt (α : Type) where
  vx : α
  vy : α
  diag : List α
  off : List α
  q : Option (List (List α))

/-- embedding of the inner `for i in start..n` loop of `do_decompose`
(lines 153-190): at index `i` with `k` rows left, build a Givens rotation
cancelling `v.y` (aborting the sweep when none exists), apply the
symmetric 2x2 similarity update to `diag[i], diag[i+1], off_diag[i]`,
propagate the bulge, and accumulate the inverse rotation into `q`. -/
def sweepBody (start n i : ℕ) (c s nrm : α) (st : SweepSt α) : SweepSt α :=
  let j := i + 1
  let off0 := if start < i then st.off.set (i - 1) nrm else st.off
  let mii := st.diag.getD i 0
  let mjj := st.diag.getD j 0
  let mij := off0.getD i 0
  let cc := c * c
  let ss := s * s
  let cs := c * s
  let b := cs * 2 * mij
  let diag1 := (st.diag.set i (cc * mii + ss * mjj - b)).set j (ss * mii + cc * mjj + b)
  let off1 := off0.set i (cs * (mii - mjj) + mij * (cc - ss))
  let next :=
    if i ≠ n - 1 then
      (off1.getD i 0, -s * off1.getD (i + 1) 0, off1.set (i + 1) (off1.getD (i + 1) 0 * c))
    else (st.vx, st.vy, off1)
  let q1 := st.q.map (fun qm => rotateCols c (-s) i qm)
  ⟨next.1, next.2.1, diag1, next.2.2, q1⟩

/-- the inner `for i in start..n` loop itself: build the rotation
cancelling `v.y` and step, or abort the sweep when none exists. -/
def sweepAux (ext : Externals α) (start n : ℕ) : ℕ → ℕ → SweepSt α → SweepSt α
  | _, 0, st => st
  | i, k + 1, st =>
    match ext.cancelY st.vx st.vy with
    | none => st
    | some (c, s, nrm) => sweepAux ext start n (i + 1) k (sweepBody start n i c s nrm st)

/-- state of the outer `while end != start` loop of `do_decompose`:
`diag`, `off_diag`, the optional accumulator and the current subproblem
bounds (`stop` stands for the source's `end`, a Lean keyword). -/
structure MainSt (α : Type) where
  diag : List α
  off : List α
  q : Option (List (List α))
  start : ℕ
  stop : ℕ

/-- one iteration of the `while end != start` loop of `do_decompose`
(lines 141-225): the `subdim > 2` implicit-shift sweep (with its
early-deflation test of `off_diag[m]`), or the `subdim == 2` closed-form
solve (with the optional accumulator rotation), followed by the
re-delimiting of the subproblem. -/
def bodyStep (ext : Externals α) (eps : α) (st : MainSt α) : MainSt α :=
  let start := st.start
  let subdim := st.stop - start + 1
  if 2 < subdim then
    let m := st.stop - 1
    let n := st.stop
    let shift := wilkinson_shift ext.sqrt (st.diag.getD m 0) (st.diag.getD n 0) (st.off.getD m 0)
    let s1 := sweepAux ext start n start (n - start)
      ⟨st.diag.getD start 0 - shift, st.off.getD start 0, st.diag, st.off, st.q⟩
    let stop1 :=
      if |s1.off.getD m 0| ≤ eps * (|s1.diag.getD m 0| + |s1.diag.getD n 0|) then st.stop - 1
      else st.stop
    let d := delimit_subproblem s1.diag s1.off stop1 eps
    ⟨s1.diag, d.2, s1.q, d.1.1, d.1.2⟩
  else if subdim = 2 then
    let a := st.diag.getD start 0
    let b := st.off.getD start 0
    let cc := st.diag.getD (start + 1) 0
    let ev := ext.eig2 a cc b
    let diag1 := (st.diag.set start ev.1).set (start + 1) ev.2
    let q1 :=
      match st.q with
      | none => none
      | some qm =>
        match ext.tryNewGivens (ev.1 - cc) b eps with
        | some (rc, rs) => some (rotateCols rc rs start qm)
        | none => some qm
    let d := delimit_subproblem diag1 st.off (st.stop - 1) eps
    ⟨diag1, d.2, q1, d.1.1, d.1.2⟩
  else
    let d := delimit_subproblem st.diag st.off st.stop eps
    ⟨st.diag, d.2, st.q, d.1.1, d.1.2⟩

/-- one guarded loop iteration: the identity once `end == start` (the loop
has exited), `bodyStep` otherwise.  Used to express convergence of the
un-budgeted iteration. -/
def stepF (ext : Externals α) (eps : α) (st : MainSt α) : MainSt α :=
  if st.stop = st.start then st else bodyStep ext eps st

/-- `k`-fold iteration of `stepF`. -/
def stepN (ext : Externals α) (eps : α) : ℕ → MainSt α → MainSt α
  | 0, st => st
  | k + 1, st => stepN ext eps k (stepF ext eps st)

/-- result of the fuel-indexed `while` loop: `diverged` is the source's
`return None` at `niter == max_niter`; `outOfFuel` marks exhaustion of the
embedding's fuel, never a behavior of the code. -/
inductive LoopRes (α : Type) where
  | outOfFuel
  | diverged
  | done (st : MainSt α)

/-- fuel-indexed embedding of the `while end != start` loop of
`do_decompose` (lines 141-226): run one `bodyStep`, increment `niter`,
return `diverged` when `niter` reaches `max_niter`, and re-test the loop
condition. -/
def iterLoop (ext : Externals α) (eps : α) (max_niter : ℕ) :
    ℕ → MainSt α → ℕ → LoopRes α
  | 0, _, _ => .outOfFuel
  | fuel + 1, st, niter =>
    if st.stop = st.start then .done st
    else
      let st1 := bodyStep ext eps st
      if niter + 1 = max_niter then .diverged
      else iterLoop ext eps max_niter fuel st1 (niter + 1)

/-- the part of `do_decompose` before the iteration loop: the squareness
assertion, the `camax` pre-scaling, the tridiagonalization (reading only
the lower triangle), the `dim == 1` early return (lines 133-136) and the
initial `delimit_subproblem` call. -/
inductive Prep (α : Type) where
  | nonSquare
  | small (vals : List α) (q : Option (List (List α)))
  | big (st : MainSt α)

/-- embedding of `do_decompose` lines 108-139 (everything up to the loop). -/
def prepare (ext : Externals α) (m : List (List α)) (eigenvectors : Bool) (eps : α) : Prep α :=
  if isSquare m = false then .nonSquare
  else
    let dim := m.length
    let amax := camax m
    let m1 := if amax = 0 then m else unscale m amax
    let t := ext.tridiag (lowerTri m1)
    let q : Option (List (List α)) := if eigenvectors then some t.1 else none
    if dim = 1 then .small (t.2.1.map (fun x => x * amax)) q
    else
      let d := delimit_subproblem t.2.1 t.2.2 (dim - 1) eps
      .big ⟨t.2.1, d.2, q, d.1.1, d.1.2⟩

/-- result of a fallible entry point: `panic` is a Rust panic (assertion or
`unwrap`), `val` a returned value, `outOfFuel` the embedding's artifact. -/
inductive Out (β : Type) where
  | panic (msg : String)
  | outOfFuel
  | val (b : β)
deriving DecidableEq

/-- the `assert!(m.is_square(), ...)` message of `do_decompose` line 110. -/
def assertMsg : String :=
  "Unable to compute the eigendecomposition of a non-square matrix."

/-- the panic of `Option::unwrap` on `None`. -/
def unwrapMsg : String := "called Option::unwrap on a None value"

/-- embedding of `SymmetricEigen::do_decompose` (lines 97-231): the value
carried by `Out.val` is the Rust `Option<(eigenvalues, Option<Q>)>`;
on loop exit the diagonal is rescaled by the original `camax`. -/
def do_decompose (ext : Externals α) (m : List (List α)) (eigenvectors : Bool) (eps : α)
    (max_niter fuel : ℕ) : Out (Option (List α × Option (List (List α)))) :=
  match prepare ext m eigenvectors eps with
  | .nonSquare => .panic assertMsg
  | .small vals q => .val (some (vals, q))
  | .big st =>
    match iterLoop ext eps max_niter fuel st 0 with
    | .outOfFuel => .outOfFuel
    | .diverged => .val none
    | .done st1 => .val (some (st1.diag.map (fun x => x * camax m), st1.q))

/-- the decomposition result (struct SymmetricEigen, lines 42-50). -/
structure SymmetricEigen (α : Type) where
  eigenvectors : List (List α)
  eigenvalues : List α
deriving DecidableEq

/-- embedding of `SymmetricEigen::try_new` / `SquareMatrix::try_symmetric_eigen`
(lines 85-95, 334-336): `do_decompose` with eigenvector accumulation, the
inner `vecs.unwrap()` turning an absent accumulator into a panic. -/
def try_symmetric_eigen (ext : Externals α) (m : List (List α)) (eps : α)
    (max_niter fuel : ℕ) : Out (Option (SymmetricEigen α)) :=
  match do_decompose ext m true eps max_niter fuel with
  | .panic msg => .panic msg
  | .outOfFuel => .outOfFuel
  | .val none => .val none
  | .val (some (vals, some q)) => .val (some ⟨q, vals⟩)
  | .val (some (_, none)) => .panic unwrapMsg

/-- embedding of `SymmetricEigen::new` / `SquareMatrix::symmetric_eigen`
(lines 65-72, 319-321): `try_new` with the default epsilon and
`max_niter = 0`, followed by `.unwrap()`. -/
def symmetric_eigen (ext : Externals α) (m : List (List α)) (fuel : ℕ) :
    Out (SymmetricEigen α) :=
  match try_symmetric_eigen ext m ext.defaultEps 0 fuel with
  | .panic msg => .panic msg
  | .outOfFuel => .outOfFuel
  | .val none => .panic unwrapMsg
  | .val (some r) => .val r

/-- embedding of `SquareMatrix::symmetric_eigenvalues` (lines 341-345):
`do_decompose` without eigenvector accumulation, default epsilon,
`max_niter = 0`, followed by `.unwrap()`. -/
def symmetric_eigenvalues (ext : Externals α) (m : List (List α)) (fuel : ℕ) :
    Out (List α) :=
  match do_decompose ext m false ext.defaultEps 0 fuel with
  | .panic msg => .panic msg
  | .outOfFuel => .outOfFuel
  | .val none => .panic unwrapMsg
  | .val (some (vals, _)) => .val vals

/-- dot product of two rows. -/
def dotL (xs ys : List α) : α := (List.zipWith (fun a b => a * b) xs ys).sum

/-- number of columns of a row-major matrix. -/
def ncols (m : List (List α)) : ℕ := (m.headD []).length

/-- column `j` of a row-major matrix. -/
def colL (m : List (List α)) (j : ℕ) : List α := m.map (fun r => r.getD j 0)

/-- transpose of a row-major rectangular matrix (the real instantiation of
`adjoint_mut`: conjugation is the identity). -/
def transposeL (m : List (List α)) : List (List α) :=
  (List.range (ncols m)).map (fun j => colL m j)

/-- row-major matrix product: entry `(i, j)` is `row i of a · column j of b`. -/
def matMul (a b : List (List α)) : List (List α) :=
  a.map (fun row => (List.range (ncols b)).map (fun j => dotL row (colL b j)))

/-- the column scaling of `recompose`: `u_t.column_mut(i).scale_mut(val_i)`. -/
def scaleCols (v : List (List α)) (vals : List α) : List (List α) :=
  v.map (fun row => List.zipWith (fun x c => x * c) row vals)

/-- embedding of `SymmetricEigen::recompose` (lines 279-287): scale a copy
of the eigenvector columns by the eigenvalues, conjugate-transpose it in
place, and left-multiply by the eigenvectors. -/
def recompose (r : SymmetricEigen α) : List (List α) :=
  matMul r.eigenvectors (transposeL (scaleCols r.eigenvectors r.eigenvalues))

/-- square diagonal matrix with the given diagonal. -/
def diagMat (vals : List α) : List (List α) :=
  (List.range vals.length).map (fun i =>
    (List.range vals.length).map (fun j => if j = i then vals.getD i 0 else 0))

/-- spec-side formula for `recompose`, written from the spec's words:
"rebuilds the original matrix as eigenvectors · diag(eigenvalues) ·
eigenvectors^H" (real instantiation: the conjugate-transpose is the
transpose). -/
def recomposeSpec (r : SymmetricEigen α) : List (List α) :=
  matMul r.eigenvectors (matMul (diagMat r.eigenvalues) (transposeL r.eigenvectors))

/-- convergence of the un-budgeted iteration within `k` loop iterations:
after the preamble of `do_decompose`, `k` guarded iterations of the loop
body reach `end == start` (trivially true when the `dim == 1` early
return fires, and on the panicking non-square path, where no iteration
exists). -/
def convergesWithin (ext : Externals α) (m : List (List α)) (eps : α) (k : ℕ) : Bool :=
  match prepare ext m true eps with
  | .big st => (stepN ext eps k st).stop == (stepN ext eps k st).start
  | _ => true

/-- Modelled from the spec: an exact square-root oracle for the rational
test instantiation, tabulated at the (perfect-square) radicands reached by
the concrete runs below; each tabulated value `r` satisfies `r * r = q`
and `0 ≤ r` (see `ratSqrt_sound`). -/
def ratSqrt (q : ℚ) : ℚ :=
  if q = 625 / 576 then 25 / 24
  else if q = 25 / 16 then 5 / 4
  else if q = 625 / 57600 then 5 / 48
  else if q = 25 / 1600 then 1 / 8
  else if q = 1 then 1
  else 0

/-- diagonal of a row-major matrix. -/
def diagOfM (m : List (List α)) : List α :=
  (List.range m.length).map (fun i => entryAt m i i)

/-- subdiagonal of a row-major matrix. -/
def subDiagOfM (m : List (List α)) : List α :=
  (List.range (m.length - 1)).map (fun i => entryAt m (i + 1) i)

/-- Modelled from the spec: the tridiagonalization interface
(`tridiagonalize(matrix) -> (Q, diag, off_diag)`, reading only the lower
triangle).  Exact for dimensions 0, 1 and 2, where a symmetric matrix is
already tridiagonal (`Q` the identity, `diag` the diagonal, `off_diag`
the subdiagonal); the general theorems below quantify over an arbitrary
`Externals.tridiag` instead, and this instance is exercised only on
1x1 and 2x2 inputs. -/
def tridiagSmall (m : List (List α)) : List (List α) × List α × List α :=
  (idMat m.length, diagOfM m, subDiagOfM m)

/-- Modelled from the spec: the closed-form 2x2 symmetric eigensolver
(`Matrix2::eigenvalues` applied to `[[a, b], [b, c]]`, always solvable on
symmetric input): `((tr/2) + sqrt(disc), (tr/2) - sqrt(disc))` with
`disc = (tr/2)^2 - det`. -/
def eig2Closed (sqrt : α → α) (a c b : α) : α × α :=
  let t := (a + c) * (1 / 2 : α)
  let r := sqrt (t * t - (a * c - b * b))
  (t + r, t - r)

/-- Modelled from the spec: the concrete rational instantiation of the
external capabilities, used to run the solver on concrete inputs.
`defaultEps` models `f64::EPSILON = 2^-52`; `cancelY` returns none exactly
on a zero `y` component; `tryNewGivens` returns none when the norm of
`(x, y)` does not exceed `eps`. -/
def extQ : Externals ℚ where
  sqrt := ratSqrt
  defaultEps := 1 / 4503599627370496
  tridiag := tridiagSmall
  eig2 := eig2Closed ratSqrt
  cancelY := fun x y =>
    if y = 0 then none
    else
      let d := ratSqrt (x * x + y * y)
      some (|x| / d, -(y * signum x) / d, signum x * d)
  tryNewGivens := fun x y eps =>
    let d := ratSqrt (x * x + y * y)
    if eps < d then some (x / d, y / d) else none

/-- a sweep state with the accumulator dropped (the eigenvalues-only path). -/
def SweepSt.eraseQ (st : SweepSt α) : SweepSt α :=
  ⟨st.vx, st.vy, st.diag, st.off, none⟩

/-- a loop state with the accumulator dropped (the eigenvalues-only path). -/
def MainSt.eraseQ (st : MainSt α) : MainSt α :=
  ⟨st.diag, st.off, none, st.start, st.stop⟩

/-- a loop result with the accumulator dropped. -/
def LoopRes.eraseQ : LoopRes α → LoopRes α
  | .outOfFuel => .outOfFuel
  | .diverged => .diverged
  | .done st => .done st.eraseQ

/-- a preamble result with the accumulator dropped. -/
def Prep.eraseQ : Prep α → Prep α
  | .nonSquare => .nonSquare
  | .small vals _ => .small vals none
  | .big st => .big st.eraseQ

/-- functorial action on fallible results. -/
def Out.map {β γ : Type} (f : β → γ) : Out β → Out γ
  | .panic msg => .panic msg
  | .outOfFuel => .outOfFuel
  | .val b => .val (f b)

/-- the deflation test of `delimit_subproblem`: the off-diagonal entry `i`
strictly exceeds `eps * (|diag[i]| + |diag[i+1]|)` in 1-norm. -/
def exceeds (diag off_diag : List α) (eps : α) (i : ℕ) : Prop :=
  eps * (|diag.getD (i + 1) 0| + |diag.getD i 0|) < |off_diag.getD i 0|

end Nalg

namespace Nalg

variable {α : Type} [LinearOrderedField α]

theorem iterLoop_max0_ne_diverged (ext : Externals α) (eps : α) :
    ∀ fuel st niter, iterLoop ext eps 0 fuel st niter ≠ LoopRes.diverged := by
  intro fuel
  induction fuel with
  | zero => intro st niter; simp [iterLoop]
  | succ n ih =>
    intro st niter
    simp only [iterLoop]
    split
    · simp
    · rw [if_neg (Nat.succ_ne_zero niter)]
      exact ih _ _

theorem sweepBody_q_isSome (start n i : ℕ) (c s nrm : α) (st : SweepSt α) :
    (sweepBody start n i c s nrm st).q.isSome = st.q.isSome := by
  simp [sweepBody]

theorem sweepAux_q_isSome (ext : Externals α) (start n : ℕ) :
    ∀ k i st, ((sweepAux ext start n i k st).q.isSome) = st.q.isSome := by
  intro k
  induction k with
  | zero => intro i st; rfl
  | succ k ih =>
    intro i st
    simp only [sweepAux]
    cases h : ext.cancelY st.vx st.vy with
    | none => rfl
    | some r =>
      obtain ⟨c, s, nrm⟩ := r
      rw [ih, sweepBody_q_isSome]

theorem bodyStep_q_isSome (ext : Externals α) (eps : α) (st : MainSt α) :
    (bodyStep ext eps st).q.isSome = st.q.isSome := by
  simp only [bodyStep]
  split
  · exact sweepAux_q_isSome ext st.start st.stop _ _ _
  · split
    · cases hq : st.q with
      | none => simp [hq]
      | some qm =>
        simp only [hq]
        cases htr : ext.tryNewGivens _ _ eps with
        | none => simp
        | some r => obtain ⟨rc, rs⟩ := r; simp
    · rfl

theorem iterLoop_done_q (ext : Externals α) (eps : α) (t : ℕ) :
    ∀ fuel st niter st1, iterLoop ext eps t fuel st niter = LoopRes.done st1 →
      st1.q.isSome = st.q.isSome := by
  intro fuel
  induction fuel with
  | zero => intro st niter st1 h; simp [iterLoop] at h
  | succ fuel ih =>
    intro st niter st1 h
    simp only [iterLoop] at h
    by_cases hc : st.stop = st.start
    · rw [if_pos hc] at h
      cases h
      rfl
    · rw [if_neg hc] at h
      by_cases hn : niter + 1 = t
      · rw [if_pos hn] at h; cases h
      · rw [if_neg hn] at h
        rw [ih _ _ _ h, bodyStep_q_isSome]

theorem stepN_frozen (ext : Externals α) (eps : α) :
    ∀ k (st : MainSt α), st.stop = st.start → stepN ext eps k st = st := by
  intro k
  induction k with
  | zero => intro st _; rfl
  | succ k ih =>
    intro st h
    simp only [stepN, stepF, if_pos h]
    exact ih st h

theorem iterLoop_diverged_iff (ext : Externals α) (eps : α) (t : ℕ) :
    ∀ fuel st niter, niter < t → t ≤ niter + fuel →
      (iterLoop ext eps t fuel st niter = LoopRes.diverged ↔
        ¬ (stepN ext eps (t - 1 - niter) st).stop = (stepN ext eps (t - 1 - niter) st).start) := by
  intro fuel
  induction fuel with
  | zero => intro st niter h1 h2; omega
  | succ fuel ih =>
    intro st niter h1 h2
    by_cases hc : st.stop = st.start
    · rw [stepN_frozen ext eps _ st hc]
      simp only [iterLoop, if_pos hc]
      constructor
      · intro h; cases h
      · intro h; exact absurd hc h
    · simp only [iterLoop, if_neg hc]
      by_cases hn : niter + 1 = t
      · rw [if_pos hn]
        have h0 : t - 1 - niter = 0 := by omega
        rw [h0]
        simp only [stepN]
        simp [hc]
      · rw [if_neg hn]
        have h1a : niter + 1 < t := by omega
        have h2a : t ≤ niter + 1 + fuel := by omega
        have harr : t - 1 - niter = (t - 1 - (niter + 1)) + 1 := by omega
        rw [harr]
        simp only [stepN, stepF, if_neg hc]
        exact ih (bodyStep ext eps st) (niter + 1) h1a h2a

theorem iterLoop_ne_outOfFuel (ext : Externals α) (eps : α) (t : ℕ) :
    ∀ fuel st niter, niter < t → t ≤ niter + fuel →
      iterLoop ext eps t fuel st niter ≠ LoopRes.outOfFuel := by
  intro fuel
  induction fuel with
  | zero => intro st niter h1 h2; omega
  | succ fuel ih =>
    intro st niter h1 h2
    simp only [iterLoop]
    by_cases hc : st.stop = st.start
    · rw [if_pos hc]; simp
    · rw [if_neg hc]
      by_cases hn : niter + 1 = t
      · rw [if_pos hn]; simp
      · rw [if_neg hn]
        exact ih _ _ (by omega) (by omega)

end Nalg

namespace Nalg

variable {α : Type} [LinearOrderedField α]

theorem sweepBody_eraseQ (start n i : ℕ) (c s nrm : α) (st : SweepSt α) :
    sweepBody start n i c s nrm st.eraseQ = (sweepBody start n i c s nrm st).eraseQ := by
  cases st
  rfl

theorem sweepAux_eraseQ (ext : Externals α) (start n : ℕ) :
    ∀ k i (st : SweepSt α),
      sweepAux ext start n i k st.eraseQ = (sweepAux ext start n i k st).eraseQ := by
  intro k
  induction k with
  | zero => intro i st; rfl
  | succ k ih =>
    intro i st
    simp only [SweepSt.eraseQ, sweepAux]
    cases h : ext.cancelY st.vx st.vy with
    | none => rfl
    | some r =>
      obtain ⟨c, s, nrm⟩ := r
      calc sweepAux ext start n (i + 1) k (sweepBody start n i c s nrm st.eraseQ)
          = sweepAux ext start n (i + 1) k (sweepBody start n i c s nrm st).eraseQ := by
            rw [sweepBody_eraseQ]
        _ = (sweepAux ext start n (i + 1) k (sweepBody start n i c s nrm st)).eraseQ :=
            ih (i + 1) (sweepBody start n i c s nrm st)

theorem bodyStep_eraseQ (ext : Externals α) (eps : α) (st : MainSt α) :
    bodyStep ext eps st.eraseQ = (bodyStep ext eps st).eraseQ := by
  obtain ⟨dg, off, q, s0, e0⟩ := st
  simp only [MainSt.eraseQ, bodyStep]
  by_cases h1 : 2 < e0 - s0 + 1
  · rw [if_pos h1, if_pos h1]
    have e := sweepAux_eraseQ ext s0 e0 (e0 - s0) s0
      ⟨dg.getD s0 0 - wilkinson_shift ext.sqrt (dg.getD (e0 - 1) 0) (dg.getD e0 0)
          (off.getD (e0 - 1) 0), off.getD s0 0, dg, off, q⟩
    simp only [SweepSt.eraseQ] at e
    rw [e]
  · rw [if_neg h1, if_neg h1]
    by_cases h2 : e0 - s0 + 1 = 2
    · rw [if_pos h2, if_pos h2]
    · rw [if_neg h2, if_neg h2]

theorem iterLoop_eraseQ (ext : Externals α) (eps : α) (t : ℕ) :
    ∀ fuel (st : MainSt α) niter,
      iterLoop ext eps t fuel st.eraseQ niter = (iterLoop ext eps t fuel st niter).eraseQ := by
  intro fuel
  induction fuel with
  | zero => intro st niter; rfl
  | succ fuel ih =>
    intro st niter
    simp only [iterLoop]
    by_cases hc : st.stop = st.start
    · have hc2 : st.eraseQ.stop = st.eraseQ.start := hc
      rw [if_pos hc, if_pos hc2]
      rfl
    · have hc2 : ¬ st.eraseQ.stop = st.eraseQ.start := hc
      rw [if_neg hc, if_neg hc2]
      by_cases hn : niter + 1 = t
      · rw [if_pos hn, if_pos hn]
        rfl
      · rw [if_neg hn, if_neg hn]
        rw [bodyStep_eraseQ]
        exact ih _ _

theorem prepare_eraseQ (ext : Externals α) (m : List (List α)) (eps : α) :
    prepare ext m false eps = (prepare ext m true eps).eraseQ := by
  simp only [prepare]
  by_cases hs : isSquare m = false
  · rw [if_pos hs, if_pos hs]; rfl
  · rw [if_neg hs, if_neg hs]
    by_cases h1 : m.length = 1
    · rw [if_pos h1, if_pos h1]; rfl
    · rw [if_neg h1, if_neg h1]; rfl

theorem prepare_true_small_q (ext : Externals α) (m : List (List α)) (eps : α)
    (vals : List α) (q : Option (List (List α))) :
    prepare ext m true eps = Prep.small vals q → q.isSome := by
  simp only [prepare]
  by_cases hs : isSquare m = false
  · rw [if_pos hs]; intro h; cases h
  · rw [if_neg hs]
    by_cases h1 : m.length = 1
    · rw [if_pos h1]
      intro h
      cases h
      rfl
    · rw [if_neg h1]; intro h; cases h

theorem prepare_true_big_q (ext : Externals α) (m : List (List α)) (eps : α)
    (st : MainSt α) :
    prepare ext m true eps = Prep.big st → st.q.isSome := by
  simp only [prepare]
  by_cases hs : isSquare m = false
  · rw [if_pos hs]; intro h; cases h
  · rw [if_neg hs]
    by_cases h1 : m.length = 1
    · rw [if_pos h1]; intro h; cases h
    · rw [if_neg h1]
      intro h
      cases h
      rfl

end Nalg

namespace Nalg

variable {α : Type} [LinearOrderedField α]

theorem delimit_first_le (diag off_diag : List α) (eps : α) :
    ∀ n, delimit_first diag off_diag eps n ≤ n := by
  intro n
  induction n with
  | zero => exact le_refl 0
  | succ n ih =>
    simp only [delimit_first]
    split
    · exact le_refl _
    · exact le_trans ih (Nat.le_succ n)

theorem delimit_first_exceeds (diag off_diag : List α) (eps : α) :
    ∀ n, delimit_first diag off_diag eps n = 0 ∨
      (0 < delimit_first diag off_diag eps n ∧
        exceeds diag off_diag eps (delimit_first diag off_diag eps n - 1)) := by
  intro n
  induction n with
  | zero => exact Or.inl rfl
  | succ n ih =>
    simp only [delimit_first]
    by_cases hc : eps * (|diag.getD (n + 1) 0| + |diag.getD n 0|) < |off_diag.getD n 0|
    · rw [if_pos hc]
      right
      refine ⟨Nat.succ_pos n, ?_⟩
      simpa [exceeds] using hc
    · rw [if_neg hc]
      exact ih

theorem delimit_first_max (diag off_diag : List α) (eps : α) :
    ∀ n i, delimit_first diag off_diag eps n ≤ i → i < n →
      ¬ exceeds diag off_diag eps i := by
  intro n
  induction n with
  | zero => intro i h1 h2; omega
  | succ n ih =>
    intro i h1 h2
    simp only [delimit_first] at h1
    by_cases hc : eps * (|diag.getD (n + 1) 0| + |diag.getD n 0|) < |off_diag.getD n 0|
    · rw [if_pos hc] at h1
      omega
    · rw [if_neg hc] at h1
      by_cases hi : i = n
      · subst hi
        simpa [exceeds] using hc
      · exact ih i h1 (by omega)

theorem delimit_second_le (diag off_diag : List α) (eps : α) :
    ∀ s, delimit_second diag off_diag eps s ≤ s := by
  intro s
  induction s with
  | zero => exact le_refl 0
  | succ s ih =>
    simp only [delimit_second]
    split
    · exact le_refl _
    · exact le_trans ih (Nat.le_succ s)

theorem delimit_second_interior (diag off_diag : List α) (eps : α) :
    ∀ s i, delimit_second diag off_diag eps s ≤ i → i < s →
      off_diag.getD i 0 ≠ 0 ∧ exceeds diag off_diag eps i := by
  intro s
  induction s with
  | zero => intro i h1 h2; omega
  | succ s ih =>
    intro i h1 h2
    simp only [delimit_second] at h1
    by_cases hc : off_diag.getD s 0 = 0 ∨
        |off_diag.getD s 0| ≤ eps * (|diag.getD (s + 1) 0| + |diag.getD s 0|)
    · rw [if_pos hc] at h1
      omega
    · rw [if_neg hc] at h1
      push_neg at hc
      by_cases hi : i = s
      · subst hi
        exact ⟨hc.1, hc.2⟩
      · exact ih i h1 (by omega)

theorem delimit_second_stop (diag off_diag : List α) (eps : α) :
    ∀ s, delimit_second diag off_diag eps s = 0 ∨
      (0 < delimit_second diag off_diag eps s ∧
        (off_diag.getD (delimit_second diag off_diag eps s - 1) 0 = 0 ∨
          ¬ exceeds diag off_diag eps (delimit_second diag off_diag eps s - 1))) := by
  intro s
  induction s with
  | zero => exact Or.inl rfl
  | succ s ih =>
    simp only [delimit_second]
    by_cases hc : off_diag.getD s 0 = 0 ∨
        |off_diag.getD s 0| ≤ eps * (|diag.getD (s + 1) 0| + |diag.getD s 0|)
    · rw [if_pos hc]
      right
      refine ⟨Nat.succ_pos s, ?_⟩
      rcases hc with h | h
      · left; simpa using h
      · right; simp only [Nat.add_sub_cancel]
        intro hx
        exact absurd h (not_le.mpr hx)
    · rw [if_neg hc]
      exact ih

end Nalg

namespace Nalg

theorem ws_denom_ne_zero (d t : ℝ) (ht : t ≠ 0) :
    d + signum d * Real.sqrt (d * d + t * t) ≠ 0 := by
  have hs : Real.sqrt (t * t) ≤ Real.sqrt (d * d + t * t) :=
    Real.sqrt_le_sqrt (by nlinarith [mul_self_nonneg d])
  have habs : Real.sqrt (t * t) = |t| := Real.sqrt_mul_self_eq_abs t
  have hpos : 0 < |t| := abs_pos.mpr ht
  have hle : |t| ≤ Real.sqrt (d * d + t * t) := habs ▸ hs
  by_cases hd : d < 0
  · have hsg : signum d = -1 := by simp [signum, hd]
    rw [hsg]
    have h2 : 0 ≤ Real.sqrt (d * d + t * t) := Real.sqrt_nonneg _
    nlinarith
  · have hsg : signum d = 1 := by simp [signum, hd]
    rw [hsg]
    push_neg at hd
    nlinarith

theorem sqrt_self_ge (d : ℝ) : d ≤ Real.sqrt (d * d) := by
  rw [Real.sqrt_mul_self_eq_abs]
  exact le_abs_self d

theorem sqrt_dd_le (d t : ℝ) : |d| ≤ Real.sqrt (d * d + t * t) := by
  have hs : Real.sqrt (d * d) ≤ Real.sqrt (d * d + t * t) :=
    Real.sqrt_le_sqrt (by nlinarith [mul_self_nonneg t])
  rwa [Real.sqrt_mul_self_eq_abs] at hs

end Nalg

namespace Nalg

/-- Claim C6: for all scalars `tmm, tnn, tmn`, `wilkinson_shift` returns
`tnn` when `tmn = 0`, and otherwise returns
`tnn - tmn^2 / (d + sign(d) * sqrt(d^2 + tmn^2))` with `d = (tmm - tnn)/2`,
where `sign(0)` is positive (`signum 0 = 1` in the embedding); under this
convention the divisor is nonzero whenever `tmn` is nonzero, so the
division is always well-defined.  Stated over the exact real field. -/
theorem claim_C6 (tmm tnn tmn : ℝ) :
    (tmn = 0 → wilkinson_shift Real.sqrt tmm tnn tmn = tnn) ∧
    (tmn ≠ 0 →
      wilkinson_shift Real.sqrt tmm tnn tmn =
        tnn - tmn ^ 2 /
          ((tmm - tnn) / 2 + signum ((tmm - tnn) / 2) *
            Real.sqrt (((tmm - tnn) / 2) ^ 2 + tmn ^ 2)) ∧
      (tmm - tnn) / 2 + signum ((tmm - tnn) / 2) *
          Real.sqrt (((tmm - tnn) / 2) ^ 2 + tmn ^ 2) ≠ 0) := by
  constructor
  · intro h
    simp [wilkinson_shift, h]
  · intro h
    have hsq : tmn * tmn ≠ 0 := mul_ne_zero h h
    have hd2 : (tmm - tnn) * (1 / 2 : ℝ) = (tmm - tnn) / 2 := by ring
    have hp2 : ((tmm - tnn) / 2 : ℝ) * ((tmm - tnn) / 2) = ((tmm - tnn) / 2) ^ 2 := by ring
    have hp3 : tmn * tmn = tmn ^ 2 := by ring
    constructor
    · simp only [wilkinson_shift, if_pos hsq]
      rw [hd2, hp2, hp3]
    · have hws := ws_denom_ne_zero ((tmm - tnn) / 2) tmn h
      rw [hp2, hp3] at hws
      exact hws

/-- witness for C6: both implications of `claim_C6` discharged at
concrete inputs, `(5, 1, 0)` for the zero off-diagonal guard and
`(5, 1, 2)` for the general formula. -/
theorem claim_C6_witness :
    ((0 : ℝ) = 0 ∧ wilkinson_shift Real.sqrt 5 1 0 = 1) ∧
    ((2 : ℝ) ≠ 0 ∧
      (wilkinson_shift Real.sqrt 5 1 2 =
        1 - 2 ^ 2 /
          ((5 - 1) / 2 + signum ((5 - 1) / 2 : ℝ) *
            Real.sqrt ((((5 : ℝ) - 1) / 2) ^ 2 + 2 ^ 2)) ∧
      ((5 : ℝ) - 1) / 2 + signum ((5 - 1) / 2 : ℝ) *
          Real.sqrt ((((5 : ℝ) - 1) / 2) ^ 2 + 2 ^ 2) ≠ 0)) :=
  ⟨⟨rfl, (claim_C6 5 1 0).1 rfl⟩, ⟨by norm_num, (claim_C6 5 1 2).2 (by norm_num)⟩⟩

/-- Claim C7: for every real symmetric 2x2 matrix `[[a, b], [b, c]]`,
`wilkinson_shift(a, c, b)` is one of the two closed-form eigenvalues and
is the one closest to `c` (exact equality in the real-field model, which
subsumes the test's 1e-7 relative tolerance). -/
theorem claim_C7 (a c b : ℝ) :
    (wilkinson_shift Real.sqrt a c b = (eig2Closed Real.sqrt a c b).1 ∨
     wilkinson_shift Real.sqrt a c b = (eig2Closed Real.sqrt a c b).2) ∧
    |wilkinson_shift Real.sqrt a c b - c| ≤ |(eig2Closed Real.sqrt a c b).1 - c| ∧
    |wilkinson_shift Real.sqrt a c b - c| ≤ |(eig2Closed Real.sqrt a c b).2 - c| := by
  have harg : (a + c) * (1 / 2 : ℝ) * ((a + c) * (1 / 2)) - (a * c - b * b) =
      (a - c) * (1 / 2) * ((a - c) * (1 / 2)) + b * b := by ring
  have ht : (a + c) * (1 / 2 : ℝ) = c + (a - c) * (1 / 2) := by ring
  set d := (a - c) * (1 / 2 : ℝ) with hd
  set r := Real.sqrt (d * d + b * b) with hr
  have he1 : (eig2Closed Real.sqrt a c b).1 = c + d + r := by
    simp only [eig2Closed]
    rw [harg, ht, ← hr]
  have he2 : (eig2Closed Real.sqrt a c b).2 = c + d - r := by
    simp only [eig2Closed]
    rw [harg, ht, ← hr]
  rw [he1, he2]
  have hrd : |d| ≤ r := sqrt_dd_le d b
  by_cases hb : b = 0
  · subst hb
    have hw : wilkinson_shift Real.sqrt a c 0 = c := by
      simp [wilkinson_shift]
    rw [hw]
    have hr0 : r = |d| := by
      rw [hr]
      simpa using Real.sqrt_mul_self_eq_abs d
    constructor
    · by_cases hdneg : d < 0
      · left
        rw [hr0, abs_of_neg hdneg]
        ring
      · right
        push_neg at hdneg
        rw [hr0, abs_of_nonneg hdneg]
        ring
    · constructor
      · simp
      · simp
  · have hsq : b * b ≠ 0 := mul_ne_zero hb hb
    have hD : d + signum d * r ≠ 0 := by
      rw [hr]
      exact ws_denom_ne_zero d b hb
    have hrr : r * r = d * d + b * b := by
      rw [hr]
      exact Real.mul_self_sqrt (by nlinarith [mul_self_nonneg d, mul_self_nonneg b])
    have hw : wilkinson_shift Real.sqrt a c b = c - b * b / (d + signum d * r) := by
      simp only [wilkinson_shift, if_pos hsq]
    have hrnn : 0 ≤ r := hr ▸ Real.sqrt_nonneg _
    by_cases hdneg : d < 0
    · have hsg : signum d = -1 := by simp [signum, hdneg]
      rw [hsg] at hD hw
      have hkey : b * b / (d + -1 * r) = -(d + r) := by
        rw [eq_comm, eq_div_iff hD]
        nlinarith
      rw [hkey] at hw
      have hw2 : wilkinson_shift Real.sqrt a c b = c + d + r := by rw [hw]; ring
      rw [hw2]
      refine ⟨Or.inl rfl, le_refl _, ?_⟩
      have h1 : c + d + r - c = r + d := by ring
      have h2 : c + d - r - c = d - r := by ring
      rw [h1, h2]
      have hdabs : |d| = -d := abs_of_neg hdneg
      have hra : |r + d| = r + d := abs_of_nonneg (by linarith [hdabs ▸ hrd])
      have hrb : |d - r| = r - d := by
        rw [abs_of_nonpos (by linarith)]
        ring
      rw [hra, hrb]
      linarith
    · have hsg : signum d = 1 := by simp [signum, hdneg]
      push_neg at hdneg
      rw [hsg] at hD hw
      have hkey : b * b / (d + 1 * r) = r - d := by
        rw [eq_comm, eq_div_iff hD]
        nlinarith
      rw [hkey] at hw
      have hw2 : wilkinson_shift Real.sqrt a c b = c + d - r := by rw [hw]; ring
      rw [hw2]
      refine ⟨Or.inr rfl, ?_, le_refl _⟩
      have h1 : c + d - r - c = d - r := by ring
      have h2 : c + d + r - c = d + r := by ring
      rw [h1, h2]
      have hdabs : |d| = d := abs_of_nonneg hdneg
      have hra : |d - r| = r - d := by
        rw [abs_of_nonpos (by linarith [hdabs ▸ hrd])]
        ring
      have hrb : |d + r| = d + r := abs_of_nonneg (by linarith)
      rw [hra, hrb]
      linarith

end Nalg


namespace Nalg

variable {α : Type} [LinearOrderedField α]

theorem prepare_nonSquare_iff (ext : Externals α) (m : List (List α)) (ev : Bool) (eps : α) :
    prepare ext m ev eps = Prep.nonSquare ↔ isSquare m = false := by
  constructor
  · intro h
    by_contra hs
    have hs2 : ¬ isSquare m = false := hs
    simp only [prepare, if_neg hs2] at h
    by_cases h1 : m.length = 1
    · rw [if_pos h1] at h; cases h
    · rw [if_neg h1] at h; cases h
  · intro h
    simp [prepare, h]

/-- Claim C2: `symmetric_eigen` (and `symmetric_eigenvalues`) panic only on
non-square input: a non-square matrix fails immediately with the
precondition-violation message of the `assert!`, and on square input the
unbounded-iteration path (`max_niter = 0`) never takes the source's
`return None` branch, so the internal `unwrap` cannot fail — no panic of
any kind occurs. -/
theorem claim_C2 (ext : Externals α) (m : List (List α)) (fuel : ℕ) :
    (isSquare m = false →
      symmetric_eigen ext m fuel = Out.panic assertMsg ∧
      symmetric_eigenvalues ext m fuel = Out.panic assertMsg) ∧
    (isSquare m = true →
      (∀ msg, symmetric_eigen ext m fuel ≠ Out.panic msg) ∧
      (∀ msg, symmetric_eigenvalues ext m fuel ≠ Out.panic msg)) := by
  constructor
  · intro hs
    have hp1 : prepare ext m true ext.defaultEps = Prep.nonSquare :=
      (prepare_nonSquare_iff ext m true _).mpr hs
    have hp2 : prepare ext m false ext.defaultEps = Prep.nonSquare :=
      (prepare_nonSquare_iff ext m false _).mpr hs
    constructor
    · simp only [symmetric_eigen, try_symmetric_eigen, do_decompose, hp1]
    · simp only [symmetric_eigenvalues, do_decompose, hp2]
  · intro hs
    constructor
    · intro msg
      cases hp : prepare ext m true ext.defaultEps with
      | nonSquare =>
        rw [prepare_nonSquare_iff] at hp
        rw [hs] at hp
        cases hp
      | small vals q =>
        have hq := prepare_true_small_q ext m ext.defaultEps vals q hp
        obtain ⟨qm, hqm⟩ := Option.isSome_iff_exists.mp hq
        subst hqm
        simp only [symmetric_eigen, try_symmetric_eigen, do_decompose, hp]
        simp
      | big st =>
        have hq := prepare_true_big_q ext m ext.defaultEps st hp
        simp only [symmetric_eigen, try_symmetric_eigen, do_decompose, hp]
        cases hit : iterLoop ext ext.defaultEps 0 fuel st 0 with
        | outOfFuel => simp
        | diverged => exact absurd hit (iterLoop_max0_ne_diverged ext ext.defaultEps fuel st 0)
        | done st1 =>
          have hq1 : st1.q.isSome := by
            rw [iterLoop_done_q ext ext.defaultEps 0 fuel st 0 st1 hit]
            exact hq
          obtain ⟨qm, hqm⟩ := Option.isSome_iff_exists.mp hq1
          simp [hqm]
    · intro msg
      cases hp : prepare ext m false ext.defaultEps with
      | nonSquare =>
        rw [prepare_nonSquare_iff] at hp
        rw [hs] at hp
        cases hp
      | small vals q =>
        simp only [symmetric_eigenvalues, do_decompose, hp]
        simp
      | big st =>
        simp only [symmetric_eigenvalues, do_decompose, hp]
        cases hit : iterLoop ext ext.defaultEps 0 fuel st 0 with
        | outOfFuel => simp
        | diverged => exact absurd hit (iterLoop_max0_ne_diverged ext ext.defaultEps fuel st 0)
        | done st1 => simp

/-- Claim C3: the eigenvalues-only entry point computes exactly the same
eigenvalue sequence as the full decomposition path (for every matrix and
fuel, including the panic and fuel-exhaustion cases); equality of the
sequences subsumes the claim's equality after sorting. -/
theorem claim_C3 (ext : Externals α) (m : List (List α)) (fuel : ℕ) :
    symmetric_eigenvalues ext m fuel =
      Out.map (fun r => r.eigenvalues) (symmetric_eigen ext m fuel) := by
  cases hp : prepare ext m true ext.defaultEps with
  | nonSquare =>
    have hp2 : prepare ext m false ext.defaultEps = Prep.nonSquare := by
      rw [prepare_eraseQ, hp]
      rfl
    simp only [symmetric_eigenvalues, symmetric_eigen, try_symmetric_eigen, do_decompose,
      hp, hp2]
    rfl
  | small vals q =>
    have hq := prepare_true_small_q ext m ext.defaultEps vals q hp
    obtain ⟨qm, hqm⟩ := Option.isSome_iff_exists.mp hq
    subst hqm
    have hp2 : prepare ext m false ext.defaultEps = Prep.small vals none := by
      rw [prepare_eraseQ, hp]
      rfl
    simp only [symmetric_eigenvalues, symmetric_eigen, try_symmetric_eigen, do_decompose,
      hp, hp2]
    rfl
  | big st =>
    have hq := prepare_true_big_q ext m ext.defaultEps st hp
    have hp2 : prepare ext m false ext.defaultEps = Prep.big st.eraseQ := by
      rw [prepare_eraseQ, hp]
      rfl
    simp only [symmetric_eigenvalues, symmetric_eigen, try_symmetric_eigen, do_decompose,
      hp, hp2, iterLoop_eraseQ]
    cases hit : iterLoop ext ext.defaultEps 0 fuel st 0 with
    | outOfFuel => rfl
    | diverged => rfl
    | done st1 =>
      have hq1 : st1.q.isSome := by
        rw [iterLoop_done_q ext ext.defaultEps 0 fuel st 0 st1 hit]
        exact hq
      obtain ⟨qm, hqm⟩ := Option.isSome_iff_exists.mp hq1
      simp [hqm, LoopRes.eraseQ, MainSt.eraseQ, Out.map]

end Nalg


namespace Nalg

variable {α : Type} [LinearOrderedField α]

theorem not_exceeds_of_zero (diag off_diag : List α) (eps : α) (i : ℕ)
    (heps : 0 ≤ eps) (h : off_diag.getD i 0 = 0) : ¬ exceeds diag off_diag eps i := by
  simp only [exceeds, h, abs_zero]
  exact not_lt.mpr (mul_nonneg heps (by positivity))

/-- Claim C4 (amended): for every `diag`, `off_diag`, index `end` and
NONNEGATIVE tolerance `eps` (the amendment: the claim as stated fails for
negative `eps`, see the counterexample), `delimit_subproblem` returns the
largest trailing unreduced block: `end' <= end`; `start = end'` only as
`(0, 0)`; every interior off-diagonal entry of the block exceeds
`eps * (|diag[i]| + |diag[i+1]|)` in 1-norm; no block ending later than
`end'` qualifies; and the block cannot be extended downward. -/
theorem claim_C4_amended (diag off_diag : List α) (end_ : ℕ) (eps : α) (heps : 0 ≤ eps) :
    ∀ s e off2, delimit_subproblem diag off_diag end_ eps = ((s, e), off2) →
      e ≤ end_ ∧
      ((s, e) = (0, 0) ∨ s < e) ∧
      (∀ i, s ≤ i → i < e → exceeds diag off_diag eps i) ∧
      (∀ i, e ≤ i → i < end_ → ¬ exceeds diag off_diag eps i) ∧
      (s = 0 ∨ ¬ exceeds diag off_diag eps (s - 1)) := by
  intro s e off2 heq
  simp only [delimit_subproblem] at heq
  by_cases hn : delimit_first diag off_diag eps end_ = 0
  · rw [if_pos hn] at heq
    injection heq with h1 h2
    injection h1 with hs he
    subst hs
    subst he
    refine ⟨Nat.zero_le _, Or.inl rfl, ?_, ?_, Or.inl rfl⟩
    · intro i hi1 hi2
      omega
    · intro i hi1 hi2
      refine delimit_first_max diag off_diag eps end_ i ?_ hi2
      rw [hn]
      exact Nat.zero_le i
  · rw [if_neg hn] at heq
    injection heq with h1 h2
    injection h1 with hs he
    subst hs
    subst he
    have hpos : 0 < delimit_first diag off_diag eps end_ := Nat.pos_of_ne_zero hn
    have hsle : delimit_second diag off_diag eps (delimit_first diag off_diag eps end_ - 1) ≤
        delimit_first diag off_diag eps end_ - 1 := delimit_second_le diag off_diag eps _
    refine ⟨delimit_first_le diag off_diag eps end_, Or.inr (by omega), ?_, ?_, ?_⟩
    · intro i hi1 hi2
      by_cases hie : i = delimit_first diag off_diag eps end_ - 1
      · subst hie
        rcases delimit_first_exceeds diag off_diag eps end_ with h0 | ⟨_, hex⟩
        · exact absurd h0 hn
        · exact hex
      · exact (delimit_second_interior diag off_diag eps
          (delimit_first diag off_diag eps end_ - 1) i hi1 (by omega)).2
    · intro i hi1 hi2
      exact delimit_first_max diag off_diag eps end_ i hi1 hi2
    · rcases delimit_second_stop diag off_diag eps
          (delimit_first diag off_diag eps end_ - 1) with h0 | ⟨hp2, hstop⟩
      · exact Or.inl h0
      · rcases hstop with hz | hex
        · exact Or.inr (not_exceeds_of_zero diag off_diag eps _ heps hz)
        · exact Or.inr hex

/-- Claim C5 (amended): `delimit_subproblem` zeroes AT MOST ONE off-diagonal
entry per call — the entry `off_diag[start-1]` just below the returned
`start`, and only when `start > 0`, where that entry is zero or at/below
its relative threshold; entries scanned by the trailing deflation loop are
NOT modified (the amendment — the claim as stated says every scanned
at-or-below-threshold entry is zeroed, see the counterexample); `diag` is
taken by shared reference and never modified. -/
theorem claim_C5_amended (diag off_diag : List α) (end_ : ℕ) (eps : α) :
    ∀ s e off2, delimit_subproblem diag off_diag end_ eps = ((s, e), off2) →
      (s = 0 → off2 = off_diag) ∧
      (0 < s → off2 = off_diag.set (s - 1) 0 ∧
        (off_diag.getD (s - 1) 0 = 0 ∨
          |off_diag.getD (s - 1) 0| ≤ eps * (|diag.getD s 0| + |diag.getD (s - 1) 0|))) := by
  intro s e off2 heq
  simp only [delimit_subproblem] at heq
  by_cases hn : delimit_first diag off_diag eps end_ = 0
  · rw [if_pos hn] at heq
    injection heq with h1 h2
    injection h1 with hs he
    subst hs
    constructor
    · intro _
      exact h2.symm
    · intro h0
      omega
  · rw [if_neg hn] at heq
    injection heq with h1 h2
    injection h1 with hs he
    subst hs
    by_cases hs0 : delimit_second diag off_diag eps (delimit_first diag off_diag eps end_ - 1) = 0
    · rw [if_pos hs0] at h2
      constructor
      · intro _
        exact h2.symm
      · intro hp
        rw [hs0] at hp
        omega
    · rw [if_neg hs0] at h2
      constructor
      · intro hz
        exact absurd hz hs0
      · intro hp
        refine ⟨h2.symm, ?_⟩
        rcases delimit_second_stop diag off_diag eps
            (delimit_first diag off_diag eps end_ - 1) with h0 | ⟨hp2, hstop⟩
        · exact absurd h0 hs0
        · rcases hstop with hz | hex
          · exact Or.inl hz
          · right
            simp only [exceeds, not_lt] at hex
            rw [Nat.sub_add_cancel hp2] at hex
            exact hex

/-- counterexample to C4 as stated: with `eps = -1`, `diag = [1,1,1]`,
`off_diag = [0,1]`, `end = 2`, every interior off-diagonal entry of the
full trailing block `[0,2]` exceeds the (negative) threshold, yet the
function returns `(1,2)`, not the larger block `(0,2)` — the `is_zero`
early stop of the second scan fires on the zero entry. -/
theorem claim_C4_counterexample :
    (delimit_subproblem [(1 : ℚ), 1, 1] [0, 1] 2 (-1)).1 = (1, 2) ∧
    exceeds [(1 : ℚ), 1, 1] [0, 1] (-1) 0 ∧
    exceeds [(1 : ℚ), 1, 1] [0, 1] (-1) 1 := by
  refine ⟨?_, ?_, ?_⟩
  · norm_num [delimit_subproblem, delimit_first, delimit_second, abs_eq_max_neg, max_def]
  · norm_num [exceeds, abs_eq_max_neg, max_def]
  · norm_num [exceeds, abs_eq_max_neg, max_def]

/-- counterexample to C5 as stated: with `eps = 1`, `diag = [1,1,1]`,
`off_diag = [1/10, 1/10]`, `end = 2`, the trailing scan walks over entry 1
(which is at/below its threshold `eps * (|diag[1]| + |diag[2]|) = 2`), the
whole range deflates to `(0,0)`, and yet the scanned entry is NOT zeroed:
the returned `off_diag` still holds `1/10` at index 1. -/
theorem claim_C5_counterexample :
    (delimit_subproblem [(1 : ℚ), 1, 1] [1/10, 1/10] 2 1).1 = (0, 0) ∧
    (delimit_subproblem [(1 : ℚ), 1, 1] [1/10, 1/10] 2 1).2 = [1/10, 1/10] ∧
    |([(1 : ℚ)/10, 1/10].getD 1 0)| ≤ 1 * (|([(1 : ℚ), 1, 1].getD 2 0)| + |([(1 : ℚ), 1, 1].getD 1 0)|) ∧
    ([(1 : ℚ)/10, 1/10].getD 1 0) ≠ 0 := by
  refine ⟨?_, ?_, ?_, ?_⟩
  · norm_num [delimit_subproblem, delimit_first, delimit_second, abs_eq_max_neg, max_def]
  · norm_num [delimit_subproblem, delimit_first, delimit_second, abs_eq_max_neg, max_def]
  · norm_num [abs_eq_max_neg, max_def]
  · norm_num

/-- witness for the amended C4 at `diag = [0,0]`, `off_diag = [1]`,
`end = 1`, `eps = 1/2`: the returned block is `(0,1)`. -/
theorem claim_C4_amended_witness :
    (0 : ℚ) ≤ 1 / 2 ∧
    delimit_subproblem [(0 : ℚ), 0] [1] 1 (1 / 2) = ((0, 1), [1]) ∧
    (1 ≤ 1 ∧ (((0 : ℕ), (1 : ℕ)) = (0, 0) ∨ (0 : ℕ) < 1)) := by
  have heq : delimit_subproblem [(0 : ℚ), 0] [1] 1 (1 / 2) = ((0, 1), [1]) := by
    norm_num [delimit_subproblem, delimit_first, delimit_second, abs_eq_max_neg, max_def]
  have h := claim_C4_amended [(0 : ℚ), 0] [1] 1 (1 / 2) (by norm_num) 0 1 [1] heq
  exact ⟨by norm_num, heq, h.1, h.2.1⟩

/-- witness for the amended C5 at `diag = [1,1,0]`, `off_diag = [1/10,1]`,
`end = 2`, `eps = 1/2`: the scan stops at `start = 1` and the single entry
`off_diag[0]` is zeroed, being at/below its threshold. -/
theorem claim_C5_amended_witness :
    delimit_subproblem [(1 : ℚ), 1, 0] [1 / 10, 1] 2 (1 / 2) = ((1, 2), [0, 1]) ∧
    (0 : ℕ) < 1 ∧
    ([(0 : ℚ), 1] = [(1 : ℚ) / 10, 1].set 0 0 ∧
      (([(1 : ℚ) / 10, 1].getD 0 0) = 0 ∨
        |([(1 : ℚ) / 10, 1].getD 0 0)| ≤
          (1 / 2) * (|([(1 : ℚ), 1, 0].getD 1 0)| + |([(1 : ℚ), 1, 0].getD 0 0)|))) := by
  have heq : delimit_subproblem [(1 : ℚ), 1, 0] [1 / 10, 1] 2 (1 / 2) = ((1, 2), [0, 1]) := by
    norm_num [delimit_subproblem, delimit_first, delimit_second, abs_eq_max_neg, max_def]
  have h := claim_C5_amended [(1 : ℚ), 1, 0] [1 / 10, 1] 2 (1 / 2) 1 2 [0, 1] heq
  exact ⟨heq, by norm_num, (h.2 (by norm_num))⟩

end Nalg

namespace Nalg

/-- witness for C2: both implications of `claim_C2` discharged concretely —
the non-square `1x2` matrix panics with the assertion message, and the
square `1x1` matrix `[[2]]` panics with no message at all. -/
theorem claim_C2_witness :
    (isSquare ([[1, 2]] : List (List ℚ)) = false ∧
      symmetric_eigen extQ [[1, 2]] 0 = Out.panic assertMsg ∧
      symmetric_eigenvalues extQ [[1, 2]] 0 = Out.panic assertMsg) ∧
    (isSquare ([[2]] : List (List ℚ)) = true ∧
      symmetric_eigen extQ [[2]] 1 ≠ Out.panic assertMsg ∧
      symmetric_eigenvalues extQ [[2]] 1 ≠ Out.panic unwrapMsg) := by
  have h1 := (claim_C2 extQ ([[1, 2]] : List (List ℚ)) 0).1 (by decide)
  have h2 := (claim_C2 extQ ([[2]] : List (List ℚ)) 1).2 (by decide)
  exact ⟨⟨by decide, h1.1, h1.2⟩, ⟨by decide, h2.1 assertMsg, h2.2 unwrapMsg⟩⟩

end Nalg


namespace Nalg

variable {α : Type} [LinearOrderedField α]

theorem getD_map_lt {β γ : Type} (L : List β) (f : β → γ) (j : ℕ) (dg : γ) (db : β)
    (h : j < L.length) : (L.map f).getD j dg = f (L.getD j db) := by
  have h2 : j < (L.map f).length := by simpa using h
  rw [List.getD_eq_getElem _ _ h2, List.getD_eq_getElem _ _ h]
  simp

theorem getD_zipWith_lt {β γ δ : Type} (f : β → γ → δ) (xs : List β) (ys : List γ)
    (j : ℕ) (d : δ) (db : β) (dc : γ) (h1 : j < xs.length) (h2 : j < ys.length) :
    (List.zipWith f xs ys).getD j d = f (xs.getD j db) (ys.getD j dc) := by
  have hl : j < (List.zipWith f xs ys).length := by
    rw [List.length_zipWith]
    omega
  rw [List.getD_eq_getElem _ _ hl, List.getD_eq_getElem _ _ h1, List.getD_eq_getElem _ _ h2]
  exact List.getElem_zipWith

theorem sum_map_range {β : Type} [AddCommMonoid β] (n : ℕ) (f : ℕ → β) :
    ((List.range n).map f).sum = ∑ i in Finset.range n, f i := by
  induction n with
  | zero => simp
  | succ n ih =>
    rw [List.range_succ, List.map_append, List.sum_append, Finset.sum_range_succ, ih]
    simp

theorem dotL_range_range (n : ℕ) (f g : ℕ → α) :
    dotL ((List.range n).map f) ((List.range n).map g) = ∑ i in Finset.range n, f i * g i := by
  rw [dotL, List.zipWith_map, List.zipWith_same, sum_map_range]

theorem map_eq_map_range {β γ : Type} (L : List β) (f : β → γ) (d : β) :
    L.map f = (List.range L.length).map (fun j => f (L.getD j d)) := by
  apply List.ext_getElem
  · simp
  · intro i h1 h2
    simp only [List.getElem_map, List.getElem_range]
    rw [List.getD_eq_getElem]


theorem dot_diagRow (vals : List α) (i : ℕ) (hi : i < vals.length) (ys : ℕ → α) :
    dotL ((List.range vals.length).map (fun j => if j = i then vals.getD i 0 else 0))
      ((List.range vals.length).map ys) = vals.getD i 0 * ys i := by
  rw [dotL_range_range]
  rw [Finset.sum_eq_single i]
  · simp
  · intro b _ hne
    simp [hne]
  · intro hni
    exact absurd (Finset.mem_range.mpr hi) hni

theorem transpose_scaleCols (V : List (List α)) (vals : List α)
    (hV : V.length = vals.length) (hrows : ∀ row ∈ V, row.length = vals.length) :
    transposeL (scaleCols V vals) = matMul (diagMat vals) (transposeL V) := by
  cases V with
  | nil =>
    have hn : vals.length = 0 := by simpa using hV.symm
    simp [transposeL, scaleCols, matMul, diagMat, ncols, hn]
  | cons r0 Vtl =>
    set V := r0 :: Vtl with hVdef
    set n := vals.length with hn
    have hr0 : r0.length = n := hrows r0 (by simp [hVdef])
    have hVn : V.length = n := hV
    have hnpos : 0 < n := by
      rw [← hVn, hVdef]
      simp
    have hncols1 : ncols (scaleCols V vals) = n := by
      simp [scaleCols, ncols, hVdef, hr0]
    have hncolsV : ncols V = n := by
      simp [ncols, hVdef, hr0]
    have htV : transposeL V = (List.range n).map (fun k => colL V k) := by
      rw [transposeL, hncolsV]
    have hheadT : (transposeL V).headD [] = colL V 0 := by
      obtain ⟨m, hm⟩ : ∃ m, n = m + 1 := ⟨n - 1, by omega⟩
      rw [htV, hm, List.range_succ_eq_map]
      simp
    have hncolsT : ncols (transposeL V) = n := by
      rw [ncols, hheadT, colL, List.length_map, hVn]
    have hcolT : ∀ j, j < n → colL (transposeL V) j =
        (List.range n).map (fun k => (V.getD j []).getD k 0) := by
      intro j hj
      rw [colL, htV, List.map_map]
      apply List.map_congr_left
      intro k _
      simp only [Function.comp_apply]
      rw [colL, getD_map_lt V _ j ((0 : α)) [] (by rw [hVn]; exact hj)]
    rw [transposeL, hncols1, matMul, hncolsT, diagMat, ← hn, List.map_map]
    apply List.map_congr_left
    intro i hi
    have hin : i < n := List.mem_range.mp hi
    have hlhs : colL (scaleCols V vals) i =
        (List.range n).map (fun j => (V.getD j []).getD i 0 * vals.getD i 0) := by
      rw [colL, scaleCols, List.map_map]
      have hstep : V.map ((fun r => r.getD i 0) ∘ (fun row => List.zipWith (fun x c => x * c) row vals)) =
          V.map (fun r => r.getD i 0 * vals.getD i 0) := by
        apply List.map_congr_left
        intro r hr
        simp only [Function.comp_apply]
        exact getD_zipWith_lt (fun x c => x * c) r vals i 0 0 0
          (by rw [hrows r hr]; exact hin) hin
      rw [hstep, map_eq_map_range V _ [], hVn]
    rw [hlhs]
    simp only [Function.comp_apply]
    apply List.map_congr_left
    intro j hj
    have hjn : j < n := List.mem_range.mp hj
    rw [hcolT j hjn, dot_diagRow vals i hin]
    exact mul_comm _ _


/-- Claim C8: `recompose` returns exactly
`eigenvectors * diag(eigenvalues) * eigenvectors^H` (the conjugate
transpose is the transpose at the real instantiation), for every
well-shaped result (square eigenvector matrix, one eigenvalue per
column).  The embedding is a pure function of `r`: the Rust method takes
`&self` and clones, so `r` itself is not mutated by the call. -/
theorem claim_C8 (r : SymmetricEigen α)
    (hlen : r.eigenvectors.length = r.eigenvalues.length)
    (hrows : ∀ row ∈ r.eigenvectors, row.length = r.eigenvalues.length) :
    recompose r = recomposeSpec r := by
  rw [recompose, recomposeSpec, transpose_scaleCols r.eigenvectors r.eigenvalues hlen hrows]

/-- witness for C8 at the concrete result `{[[1,2],[3,4]], [5,6]}`. -/
theorem claim_C8_witness :
    (([[1, 2], [3, 4]] : List (List ℚ)).length = ([5, 6] : List ℚ).length) ∧
    recompose (⟨[[1, 2], [3, 4]], [5, 6]⟩ : SymmetricEigen ℚ) =
      recomposeSpec (⟨[[1, 2], [3, 4]], [5, 6]⟩ : SymmetricEigen ℚ) :=
  ⟨rfl, claim_C8 ⟨[[1, 2], [3, 4]], [5, 6]⟩ rfl (by decide)⟩

/-- Claim C9: decomposing the 1x1 matrix `[v]` yields eigenvalue exactly
`v` (including negative and zero `v`) and eigenvector `[1]`, for every
`eps` and every `max_niter` including `max_niter = 1` and for every fuel:
the `dim == 1` path returns before the iteration loop and its counter.
Quantified over any tridiagonalization capability that is exact on 1x1
input (`Q = [[1]]`, `diag = [x]`, empty off-diagonal). -/
theorem claim_C9 (ext : Externals α)
    (h1 : ∀ x : α, ext.tridiag [[x]] = ([[1]], [x], []))
    (v eps : α) (max_niter fuel : ℕ) :
    try_symmetric_eigen ext [[v]] eps max_niter fuel = Out.val (some ⟨[[1]], [v]⟩) := by
  have hsq : isSquare ([[v]] : List (List α)) = true := rfl
  have hlow : ∀ x : α, lowerTri [[x]] = [[x]] := by
    intro x
    simp [lowerTri, entryAt, List.range_succ]
  have h0x : max (|v|) 0 = |v| := max_eq_left (abs_nonneg v)
  have hc : camax ([[v]] : List (List α)) = |v| := by
    simp [camax, h0x]
  have hprep : prepare ext [[v]] true eps = Prep.small [v] (some [[1]]) := by
    by_cases hv : v = 0
    · subst hv
      simp [prepare, hsq, hc, hlow, h1]
    · have habs : |v| ≠ 0 := abs_ne_zero.mpr hv
      simp [prepare, hsq, hc, hlow, h1, habs, unscale, div_mul_cancel₀ v habs]
  simp [try_symmetric_eigen, do_decompose, hprep]

/-- witness for C9 at `v = -5`, `eps = 1`, `max_niter = 1`, `fuel = 0`,
with the concrete rational externals (whose tridiagonalization is exact
on 1x1 input). -/
theorem claim_C9_witness :
    (extQ.tridiag [[(-5 : ℚ)]] = ([[1]], [(-5 : ℚ)], [])) ∧
    try_symmetric_eigen extQ [[(-5 : ℚ)]] 1 1 0 =
      Out.val (some ⟨[[1]], [(-5 : ℚ)]⟩) := by
  refine ⟨rfl, claim_C9 extQ ?_ (-5) 1 1 0⟩
  intro x
  rfl

end Nalg


namespace Nalg

variable {α : Type} [LinearOrderedField α]

/-- Claim C1 (amended): for every square matrix, every `eps` and every
nonzero `max_niter`, `try_symmetric_eigen` returns "no result" (the Rust
`None`) exactly when the iteration does NOT converge within
`max_niter - 1` iterations — the amendment: the source increments `niter`
and tests `niter == max_niter` BEFORE re-testing the loop condition, so a
run converging in exactly `max_niter` iterations still returns `None`
(see the counterexample); a converged run within the stricter budget
returns the decomposition, a non-converged run returns `None` with no
partial output, and no panic occurs. -/
theorem claim_C1_amended (ext : Externals α) (m : List (List α)) (eps : α) (t fuel : ℕ)
    (hsq : isSquare m = true) (ht : 1 ≤ t) (hf : t ≤ fuel) :
    (try_symmetric_eigen ext m eps t fuel = Out.val none ↔
      convergesWithin ext m eps (t - 1) = false) ∧
    (∀ msg, try_symmetric_eigen ext m eps t fuel ≠ Out.panic msg) ∧
    try_symmetric_eigen ext m eps t fuel ≠ Out.outOfFuel := by
  cases hp : prepare ext m true eps with
  | nonSquare =>
    rw [prepare_nonSquare_iff] at hp
    rw [hsq] at hp
    cases hp
  | small vals q =>
    have hq := prepare_true_small_q ext m eps vals q hp
    obtain ⟨qm, hqm⟩ := Option.isSome_iff_exists.mp hq
    subst hqm
    simp only [try_symmetric_eigen, do_decompose, convergesWithin, hp]
    refine ⟨?_, ?_, ?_⟩
    · simp
    · intro msg
      simp
    · simp
  | big st =>
    have hqs := prepare_true_big_q ext m eps st hp
    have hdiv := iterLoop_diverged_iff ext eps t fuel st 0 (by omega) (by omega)
    have hnof := iterLoop_ne_outOfFuel ext eps t fuel st 0 (by omega) (by omega)
    simp only [Nat.sub_zero] at hdiv
    simp only [try_symmetric_eigen, do_decompose, convergesWithin, hp]
    cases hit : iterLoop ext eps t fuel st 0 with
    | outOfFuel => exact absurd hit hnof
    | diverged =>
      rw [hit] at hdiv
      have hnc : ¬ (stepN ext eps (t - 1) st).stop = (stepN ext eps (t - 1) st).start :=
        hdiv.mp rfl
      refine ⟨?_, ?_, ?_⟩
      · simp [beq_eq_false_iff_ne, hnc]
      · intro msg
        simp
      · simp
    | done st1 =>
      rw [hit] at hdiv
      have hcv : (stepN ext eps (t - 1) st).stop = (stepN ext eps (t - 1) st).start := by
        by_contra hcc
        exact absurd (hdiv.mpr hcc) (by simp)
      have hq1 : st1.q.isSome := by
        rw [iterLoop_done_q ext eps t fuel st 0 st1 hit]
        exact hqs
      obtain ⟨qm, hqm⟩ := Option.isSome_iff_exists.mp hq1
      refine ⟨?_, ?_, ?_⟩
      · simp [hqm, hcv]
      · intro msg
        simp [hqm]
      · simp [hqm]


set_option maxHeartbeats 2000000 in
/-- counterexample to C1 as stated: the 2x2 matrix `[[-7/12, 1], [1, 0]]`
converges in exactly one iteration (`convergesWithin ... 1 = true`), which
is within the budget `max_niter = 1`, yet `try_symmetric_eigen` with
`max_niter = 1` returns "no result" instead of the decomposition. -/
theorem claim_C1_counterexample :
    convergesWithin extQ [[-7/12, 1], [1, 0]] (1/2) 1 = true ∧
    try_symmetric_eigen extQ [[-7/12, 1], [1, 0]] (1/2) 1 2 = Out.val none := by
  constructor
  · norm_num [convergesWithin, prepare, isSquare, camax, unscale, lowerTri, entryAt, extQ,
      tridiagSmall, idMat, diagOfM, subDiagOfM, delimit_subproblem, delimit_first,
      delimit_second, stepN, stepF, bodyStep, sweepAux, eig2Closed, ratSqrt, signum,
      wilkinson_shift, rotateCols, List.range_succ, abs_eq_max_neg, max_def]
  · norm_num [try_symmetric_eigen, do_decompose, prepare, isSquare, camax, unscale, lowerTri,
      entryAt, extQ, tridiagSmall, idMat, diagOfM, subDiagOfM, delimit_subproblem,
      delimit_first, delimit_second, iterLoop, bodyStep, sweepAux, eig2Closed, ratSqrt, signum,
      wilkinson_shift, rotateCols, List.range_succ, abs_eq_max_neg, max_def]

/-- witness for the amended C1 at the 1x1 matrix `[[2]]`,
`eps = 1`, `max_niter = 1`, `fuel = 2`. -/
theorem claim_C1_amended_witness :
    isSquare ([[(2 : ℚ)]]) = true ∧ 1 ≤ 1 ∧ 1 ≤ 2 ∧
    (try_symmetric_eigen extQ [[(2 : ℚ)]] 1 1 2 = Out.val none ↔
      convergesWithin extQ [[(2 : ℚ)]] 1 0 = false) ∧
    try_symmetric_eigen extQ [[(2 : ℚ)]] 1 1 2 ≠ Out.outOfFuel := by
  have h := claim_C1_amended extQ [[(2 : ℚ)]] 1 1 2 (by decide) (by decide) (by decide)
  exact ⟨by decide, by decide, by decide, h.1, h.2.2⟩

end Nalg


namespace Nalg

variable {α : Type} [LinearOrderedField α]

theorem entryAt_unscale (m : List (List α)) (a : α) (i j : ℕ) :
    entryAt (unscale m a) i j = entryAt m i j / a := by
  unfold entryAt unscale
  by_cases hi : i < m.length
  · rw [getD_map_lt m _ i ([] : List α) ([] : List α) hi]
    by_cases hj : j < (m.getD i []).length
    · rw [getD_map_lt _ _ j (0 : α) (0 : α) hj]
    · have hl1 : ((m.getD i []).map (fun x => x / a)).length ≤ j := by
        simp only [List.length_map]
        omega
      have hl2 : (m.getD i []).length ≤ j := by omega
      rw [List.getD_eq_default _ _ hl1, List.getD_eq_default _ _ hl2, zero_div]
  · have hl1 : (m.map (fun r => r.map (fun x => x / a))).length ≤ i := by
      simp only [List.length_map]
      omega
    have hl2 : m.length ≤ i := by omega
    rw [List.getD_eq_default _ _ hl1, List.getD_eq_default _ _ hl2]
    show (0 : α) = 0 / a
    rw [zero_div]

theorem lowerTri_congr (m1 m2 : List (List α)) (hlen : m1.length = m2.length)
    (hlow : ∀ i j, j ≤ i → entryAt m1 i j = entryAt m2 i j) :
    lowerTri m1 = lowerTri m2 := by
  unfold lowerTri
  rw [hlen]
  apply List.map_congr_left
  intro i _
  apply List.map_congr_left
  intro j _
  by_cases h : j ≤ i
  · simp [h, hlow i j h]
  · simp [h]

theorem prepare_congr (ext : Externals α) (m1 m2 : List (List α)) (ev : Bool) (eps : α)
    (hs1 : isSquare m1 = true) (hs2 : isSquare m2 = true)
    (hlen : m1.length = m2.length)
    (hlow : ∀ i j, j ≤ i → entryAt m1 i j = entryAt m2 i j)
    (hmax : camax m1 = camax m2) :
    prepare ext m1 ev eps = prepare ext m2 ev eps := by
  have hkey : lowerTri (if camax m1 = 0 then m1 else unscale m1 (camax m1)) =
      lowerTri (if camax m2 = 0 then m2 else unscale m2 (camax m2)) := by
    rw [← hmax]
    by_cases h0 : camax m1 = 0
    · rw [if_pos h0, if_pos h0]
      exact lowerTri_congr m1 m2 hlen hlow
    · rw [if_neg h0, if_neg h0]
      refine lowerTri_congr _ _ (by simp [unscale, hlen]) ?_
      intro i j hj
      rw [entryAt_unscale, entryAt_unscale, hlow i j hj]
  simp only [prepare, hs1, hs2]
  rw [hkey, hlen, hmax]

theorem do_decompose_congr (ext : Externals α) (m1 m2 : List (List α)) (ev : Bool) (eps : α)
    (t fuel : ℕ)
    (hs1 : isSquare m1 = true) (hs2 : isSquare m2 = true)
    (hlen : m1.length = m2.length)
    (hlow : ∀ i j, j ≤ i → entryAt m1 i j = entryAt m2 i j)
    (hmax : camax m1 = camax m2) :
    do_decompose ext m1 ev eps t fuel = do_decompose ext m2 ev eps t fuel := by
  have hp := prepare_congr ext m1 m2 ev eps hs1 hs2 hlen hlow hmax
  simp only [do_decompose, hp, hmax]

/-- Claim C10 (amended): two-run noninterference holds for square matrices
of the same dimension that agree on their lower triangles AND have the
same maximum absolute entry (`camax`, the pre-scaling factor) — then
`try_symmetric_eigen` (same `eps`, `max_niter`), `symmetric_eigen` and
`symmetric_eigenvalues` produce identical results.  The amendment adds
the equal-`camax` hypothesis: the claim as stated is false, because the
2x2 closed-form branch tests the SCALED basis norm against the unscaled
`eps` in `GivensRotation::try_new`, so an upper-triangle entry can change
the scaling and flip the eigenvector rotation (see the counterexample). -/
theorem claim_C10_amended (ext : Externals α) (m1 m2 : List (List α)) (eps : α) (t fuel : ℕ)
    (hs1 : isSquare m1 = true) (hs2 : isSquare m2 = true)
    (hlen : m1.length = m2.length)
    (hlow : ∀ i j, j ≤ i → entryAt m1 i j = entryAt m2 i j)
    (hmax : camax m1 = camax m2) :
    try_symmetric_eigen ext m1 eps t fuel = try_symmetric_eigen ext m2 eps t fuel ∧
    symmetric_eigen ext m1 fuel = symmetric_eigen ext m2 fuel ∧
    symmetric_eigenvalues ext m1 fuel = symmetric_eigenvalues ext m2 fuel := by
  refine ⟨?_, ?_, ?_⟩
  · simp only [try_symmetric_eigen,
      do_decompose_congr ext m1 m2 true eps t fuel hs1 hs2 hlen hlow hmax]
  · simp only [symmetric_eigen, try_symmetric_eigen,
      do_decompose_congr ext m1 m2 true ext.defaultEps 0 fuel hs1 hs2 hlen hlow hmax]
  · simp only [symmetric_eigenvalues,
      do_decompose_congr ext m1 m2 false ext.defaultEps 0 fuel hs1 hs2 hlen hlow hmax]


set_option maxHeartbeats 4000000 in
/-- counterexample to C10 as stated: `[[-7/12, 1], [1, 0]]` and
`[[-7/12, 10], [1, 0]]` are square, of equal dimension, and agree on
their whole lower triangles, yet `try_symmetric_eigen` with `eps = 1/2`,
`max_niter = 2` returns different results: the first run rotates the
accumulator (eigenvectors `[[3/5, 4/5], [-4/5, 3/5]]`), the second —
pre-scaled by its larger `camax = 10` — fails the `try_new` threshold
and keeps the identity eigenvectors.  The eigenvalues agree (`3/4` and
`-4/3`); only the eigenvectors differ. -/
theorem claim_C10_counterexample :
    isSquare ([[-7/12, 1], [1, 0]] : List (List ℚ)) = true ∧
    isSquare ([[-7/12, 10], [1, 0]] : List (List ℚ)) = true ∧
    ([[-7/12, 1], [1, 0]] : List (List ℚ)).length =
      ([[-7/12, 10], [1, 0]] : List (List ℚ)).length ∧
    entryAt ([[-7/12, 1], [1, 0]] : List (List ℚ)) 0 0 =
      entryAt ([[-7/12, 10], [1, 0]] : List (List ℚ)) 0 0 ∧
    entryAt ([[-7/12, 1], [1, 0]] : List (List ℚ)) 1 0 =
      entryAt ([[-7/12, 10], [1, 0]] : List (List ℚ)) 1 0 ∧
    entryAt ([[-7/12, 1], [1, 0]] : List (List ℚ)) 1 1 =
      entryAt ([[-7/12, 10], [1, 0]] : List (List ℚ)) 1 1 ∧
    try_symmetric_eigen extQ [[-7/12, 1], [1, 0]] (1/2) 2 3 ≠
      try_symmetric_eigen extQ [[-7/12, 10], [1, 0]] (1/2) 2 3 := by
  refine ⟨by decide, by decide, rfl, rfl, rfl, rfl, ?_⟩
  have h1 : try_symmetric_eigen extQ [[-7/12, 1], [1, 0]] (1/2) 2 3 =
      Out.val (some ⟨[[3/5, 4/5], [-4/5, 3/5]], [3/4, -4/3]⟩) := by
    norm_num [try_symmetric_eigen, do_decompose, prepare, isSquare, camax, unscale, lowerTri,
      entryAt, extQ, tridiagSmall, idMat, diagOfM, subDiagOfM, delimit_subproblem,
      delimit_first, delimit_second, iterLoop, bodyStep, sweepAux, eig2Closed, ratSqrt, signum,
      wilkinson_shift, rotateCols, List.range_succ, abs_eq_max_neg, max_def]
  have h2 : try_symmetric_eigen extQ [[-7/12, 10], [1, 0]] (1/2) 2 3 =
      Out.val (some ⟨[[1, 0], [0, 1]], [3/4, -4/3]⟩) := by
    norm_num [try_symmetric_eigen, do_decompose, prepare, isSquare, camax, unscale, lowerTri,
      entryAt, extQ, tridiagSmall, idMat, diagOfM, subDiagOfM, delimit_subproblem,
      delimit_first, delimit_second, iterLoop, bodyStep, sweepAux, eig2Closed, ratSqrt, signum,
      wilkinson_shift, rotateCols, List.range_succ, abs_eq_max_neg, max_def]
  rw [h1, h2]
  intro hcon
  injection hcon with ha
  injection ha with hb
  injection hb with hvec hval
  injection hvec with hrow
  injection hrow with hentry
  norm_num at hentry

set_option maxHeartbeats 4000000 in
/-- witness for the amended C10: `[[-7/12, 1], [1, 0]]` and
`[[-7/12, -1], [1, 0]]` agree on the lower triangle and have equal
`camax = 1`; all three entry points coincide. -/
theorem claim_C10_amended_witness :
    camax ([[-7/12, 1], [1, 0]] : List (List ℚ)) =
      camax ([[-7/12, -1], [1, 0]] : List (List ℚ)) ∧
    try_symmetric_eigen extQ [[-7/12, 1], [1, 0]] (1/2) 2 3 =
      try_symmetric_eigen extQ [[-7/12, -1], [1, 0]] (1/2) 2 3 ∧
    symmetric_eigen extQ [[-7/12, 1], [1, 0]] 3 =
      symmetric_eigen extQ [[-7/12, -1], [1, 0]] 3 ∧
    symmetric_eigenvalues extQ [[-7/12, 1], [1, 0]] 3 =
      symmetric_eigenvalues extQ [[-7/12, -1], [1, 0]] 3 := by
  have hmax : camax ([[-7/12, 1], [1, 0]] : List (List ℚ)) =
      camax ([[-7/12, -1], [1, 0]] : List (List ℚ)) := by
    norm_num [camax, abs_eq_max_neg, max_def]
  have hlow : ∀ i j, j ≤ i →
      entryAt ([[-7/12, 1], [1, 0]] : List (List ℚ)) i j =
        entryAt ([[-7/12, -1], [1, 0]] : List (List ℚ)) i j := by
    intro i j hj
    rcases i with _ | _ | i
    · rcases j with _ | j
      · rfl
      · omega
    · rcases j with _ | _ | j
      · rfl
      · rfl
      · omega
    · unfold entryAt
      rw [List.getD_eq_default _ _
          (by simp : ([[-7/12, 1], [1, 0]] : List (List ℚ)).length ≤ i + 2),
        List.getD_eq_default _ _
          (by simp : ([[-7/12, -1], [1, 0]] : List (List ℚ)).length ≤ i + 2)]
  have h := claim_C10_amended extQ [[-7/12, 1], [1, 0]] [[-7/12, -1], [1, 0]] (1/2) 2 3
    (by decide) (by decide) rfl hlow hmax
  exact ⟨hmax, h.1, h.2.1, h.2.2⟩

end Nalg

namespace Nalg

theorem ratSqrt_sound :
    (ratSqrt (625 / 576) * ratSqrt (625 / 576) = 625 / 576 ∧ 0 ≤ ratSqrt (625 / 576)) ∧
    (ratSqrt (25 / 16) * ratSqrt (25 / 16) = 25 / 16 ∧ 0 ≤ ratSqrt (25 / 16)) ∧
    (ratSqrt (625 / 57600) * ratSqrt (625 / 57600) = 625 / 57600 ∧ 0 ≤ ratSqrt (625 / 57600)) ∧
    (ratSqrt (25 / 1600) * ratSqrt (25 / 1600) = 25 / 1600 ∧ 0 ≤ ratSqrt (25 / 1600)) ∧
    (ratSqrt 1 * ratSqrt 1 = 1 ∧ 0 ≤ ratSqrt 1) := by
  norm_num [ratSqrt]

end Nalg
